import Mathlib

/-!
Shallow embedding of the extraction core of the video-description-pipeline
service: the Deepgram transcript segmentation (RunASR, groupWordsIntoChunks),
the Gemini visual-description loop (RunVLM, callGemini), and the extraction
request handler's input gathering and stream gating (ServeHTTP).

Go strings are modelled as lists of characters (`GoStr`), float64 seconds as
rationals, and each provider HTTP exchange as an explicit "wire" outcome value
describing what the code observes after the call (transport error, or a status
code with a body and the result of decoding it).
-/

/-- Go strings modelled as lists of characters. -/
abbrev GoStr := List Char

/-- Model of Go unicode.IsSpace on the whitespace characters relevant here
(ASCII whitespace plus U+0085 and U+00A0; rarer Unicode space code points are
omitted from the model). -/
def isSpaceChar (c : Char) : Bool :=
  c = ' ' || c = '\t' || c = '\n' || c = '\u000B' || c = '\u000C' || c = '\r' ||
    c = '\u0085' || c = ' '

/-- Model of Go strings.TrimSpace: drop leading and trailing whitespace. -/
def trimSpace (s : GoStr) : GoStr :=
  ((s.dropWhile isSpaceChar).reverse.dropWhile isSpaceChar).reverse

/-- Model of Go strings.Join(elems, " "). -/
def joinSpace : List GoStr → GoStr
  | [] => []
  | [s] => s
  | s :: rest => s ++ ' ' :: joinSpace rest

/-- Decimal rendering of a natural number (for fmt %d interpolations). -/
def natToGoStr (n : Nat) : GoStr := Nat.toDigits 10 n

/-- ASRSegment (deepgram.go): one timestamped transcript segment. -/
structure ASRSegment where
  Start : ℚ
  End : ℚ
  Text : GoStr
deriving DecidableEq, Repr

/-- ASRResult (deepgram.go): output of the transcription stream. -/
structure ASRResult where
  Segments : List ASRSegment
deriving DecidableEq, Repr

/-- wordEntry (deepgram.go): one word-level recognition entry. -/
structure wordEntry where
  Word : GoStr
  Start : ℚ
  End : ℚ
deriving DecidableEq, Repr

/-- One utterance of deepgramResponse.Results.Utterances. -/
structure Utterance where
  Start : ℚ
  End : ℚ
  Transcript : GoStr
deriving DecidableEq, Repr

/-- One alternative of a channel of deepgramResponse (the Go struct is
anonymous; named DGAlternative here because Alternative is taken). -/
structure DGAlternative where
  Words : List wordEntry
deriving DecidableEq, Repr

/-- One channel of deepgramResponse.Results.Channels. -/
structure Channel where
  Alternatives : List DGAlternative
deriving DecidableEq, Repr

/-- The Results field of deepgramResponse. -/
structure DeepgramResults where
  Utterances : List Utterance
  Channels : List Channel
deriving DecidableEq, Repr

/-- deepgramResponse (deepgram.go): the decoded provider response. -/
structure deepgramResponse where
  Results : DeepgramResults
deriving DecidableEq, Repr

/-- The utterances loop of RunASR (primary path): append one segment per
utterance whose trimmed transcript is non-empty, in provider order. -/
def utteranceSegments : List Utterance → List ASRSegment
  | [] => []
  | u :: rest =>
    let text := trimSpace u.Transcript
    if text = [] then utteranceSegments rest
    else ⟨u.Start, u.End, text⟩ :: utteranceSegments rest

/-- The for-loop of groupWordsIntoChunks, threading the mutable state
(chunk, chunkStart, started); returns the emitted segments together with the
final chunk and chunkStart values. In the source, after a flush the chunk is
reset to nil and started to false; chunkStart is re-assigned from the next
word's start because started is false. -/
def groupWordsLoop (chunkDuration : ℚ) :
    List wordEntry → List GoStr → ℚ → Bool → List ASRSegment × List GoStr × ℚ
  | [], chunk, chunkStart, _ => ([], chunk, chunkStart)
  | w :: rest, chunk, chunkStart, started =>
    let cs := if started then chunkStart else w.Start
    let chunk1 := chunk ++ [w.Word]
    if w.End - cs ≥ chunkDuration then
      let r := groupWordsLoop chunkDuration rest [] cs false
      (⟨cs, w.End, joinSpace chunk1⟩ :: r.1, r.2)
    else
      groupWordsLoop chunkDuration rest chunk1 cs true

/-- groupWordsIntoChunks (deepgram.go): greedy chunking of word-level entries,
flushing a chunk once the span since the chunk's start reaches the chunk
duration, then flushing any remaining chunk with the last word's end time. -/
def groupWordsIntoChunks (words : List wordEntry) (chunkDuration : ℚ) :
    List ASRSegment :=
  let r := groupWordsLoop chunkDuration words [] 0 false
  match r.2.1, words.getLast? with
  | [], _ => r.1
  | _, none => r.1
  | chunk, some lastWord => r.1 ++ [⟨r.2.2, lastWord.End, joinSpace chunk⟩]

/-- The segment-construction part of RunASR applied to a decoded 200 response:
primary utterance path, then the word-level fallback when the primary path
produced no segments and a channel is present. -/
def runASRSegments (dgResp : deepgramResponse) : List ASRSegment :=
  let primary := utteranceSegments dgResp.Results.Utterances
  if primary.length = 0 ∧ 0 < dgResp.Results.Channels.length then
    match dgResp.Results.Channels.head? with
    | none => primary
    | some ch =>
      match ch.Alternatives.head? with
      | none => primary
      | some alt => groupWordsIntoChunks alt.Words 3
  else primary

/-- Outcome of the single HTTP exchange RunASR performs, as observed by the
code: a transport error from the client, or a status code with the raw body
and the result of JSON-decoding that body into deepgramResponse. -/
inductive ASRWire where
  | transportErr (msg : GoStr)
  | httpResp (status : Nat) (rawBody : GoStr) (decoded : Except GoStr deepgramResponse)

/-- RunASR (deepgram.go), modelled over the wire outcome of its one provider
call; the Go pair (*ASRResult, error) is modelled as
(Option ASRResult, Option GoStr). The request-construction error path is not
modelled (it precedes the exchange and returns before any provider
interaction). -/
def RunASR (wire : ASRWire) : Option ASRResult × Option GoStr :=
  match wire with
  | .transportErr msg => (none, some (("deepgram request: ").toList ++ msg))
  | .httpResp status rawBody decoded =>
    if status ≠ 200 then
      (none, some (("deepgram returned ").toList ++ natToGoStr status ++
        (": ").toList ++ rawBody))
    else
      match decoded with
      | .error msg => (none, some (("decode response: ").toList ++ msg))
      | .ok dgResp => (some ⟨runASRSegments dgResp⟩, none)

/-- One candidate of geminiResponse (its content's parts, each reduced to the
Text field actually read by the code). -/
structure GeminiCandidate where
  Parts : List GoStr
deriving DecidableEq, Repr

/-- geminiResponse (gemini.go): the decoded provider response; Error holds the
message of the structured error object when present. -/
structure geminiResponse where
  Candidates : List GeminiCandidate
  Error : Option GoStr
deriving DecidableEq, Repr

/-- Outcome of one HTTP exchange callGemini performs: transport error from the
client, body-read error, or a status code with the raw body and the result of
JSON-decoding that body into geminiResponse. -/
inductive GeminiWire where
  | transportErr (msg : GoStr)
  | readErr (msg : GoStr)
  | httpResp (status : Nat) (rawBody : GoStr) (decoded : Except GoStr geminiResponse)

/-- callGemini (gemini.go), modelled over the wire outcome of its HTTP
exchange; returns the Go pair (string, error) as Except. The marshal-request
and create-request error paths are not modelled (they precede the exchange). -/
def callGemini (wire : GeminiWire) : Except GoStr GoStr :=
  match wire with
  | .transportErr msg => .error (("gemini request: ").toList ++ msg)
  | .readErr msg => .error (("read response: ").toList ++ msg)
  | .httpResp status rawBody decoded =>
    if status ≠ 200 then
      .error (("gemini returned ").toList ++ natToGoStr status ++
        (": ").toList ++ rawBody)
    else
      match decoded with
      | .error msg => .error (("decode response: ").toList ++ msg)
      | .ok gemResp =>
        match gemResp.Error with
        | some msg => .error (("gemini error: ").toList ++ msg)
        | none =>
          match gemResp.Candidates.head? with
          | none => .error ("empty response from gemini").toList
          | some cand =>
            match cand.Parts.head? with
            | none => .error ("empty response from gemini").toList
            | some text => .ok (trimSpace text)

/-- VLMFrame (gemini.go): one per-keyframe description. -/
structure VLMFrame where
  FrameIndex : Int
  TimestampSec : ℚ
  Description : GoStr
deriving DecidableEq, Repr

/-- VLMResult (gemini.go): output of the VLM description stream. -/
structure VLMResult where
  Frames : List VLMFrame
deriving DecidableEq, Repr

/-- KeyframeInput (gemini.go): keyframe metadata plus image bytes. -/
structure KeyframeInput where
  FrameIndex : Int
  TimestampSec : ℚ
  ImageBytes : List Nat
deriving DecidableEq, Repr

/-- Head of vlmPromptTemplate, up to the first interpolation (prevDesc). -/
def vlmPromptA : GoStr :=
  ("Analyze this frame from a video advertisement.\nPrevious frame context: ").toList

/-- Middle of vlmPromptTemplate, between prevDesc and the timestamp. -/
def vlmPromptB : GoStr := ("\nTimestamp: ").toList

/-- Tail of vlmPromptTemplate, after the timestamp interpolation. -/
def vlmPromptC : GoStr :=
  ("s\n\nDescribe in 2-3 sentences covering:\n1. What is happening visually (people, product, setting, action)\n2. Camera movement and shot type (close-up, wide shot, zoom in, pan, cut, handheld shake, tracking)\n3. Emotional tone, color palette, pacing feel\n4. Any motion blur, fast cuts, slow motion, or speed ramp effects\n\nBe specific and concrete. Use explicit motion vocabulary: cut, zoom, pan, handheld, slow motion, fast cut, tracking shot, static shot, dolly, whip pan.").toList

/-- Model of fmt %.1f applied to a timestamp: nearest tenth, halves rounded
up (Go formats the underlying float64; ties and exotic values differ only in
ways no claim depends on). -/
def fmtF1 (q : ℚ) : GoStr :=
  let n : Int := Int.floor (q * 10 + 1 / 2)
  let m : Nat := n.natAbs
  (if n < 0 then ['-'] else []) ++ natToGoStr (m / 10) ++ ('.' :: natToGoStr (m % 10))

/-- fmt.Sprintf(vlmPromptTemplate, prevDesc, kf.TimestampSec). -/
def mkPrompt (prevDesc : GoStr) (ts : ℚ) : GoStr :=
  vlmPromptA ++ prevDesc ++ vlmPromptB ++ fmtF1 ts ++ vlmPromptC

/-- fmt.Sprintf of the per-frame failure marker "[Error: %v]". -/
def errMarker (e : GoStr) : GoStr := ("[Error: ").toList ++ e ++ ("]").toList

/-- The initial prevDesc sentinel of RunVLM. -/
def initialPrevDesc : GoStr := ("This is the first frame of the ad.").toList

/-- The per-keyframe loop of RunVLM: `oracle i` is the wire outcome of the
i-th sequential Gemini call. For each keyframe the loop records the prompt
sent and the frame emitted; on a failed call the frame's description is the
bracketed error marker and prevDesc is left unchanged, on success the (already
trimmed) description becomes the new prevDesc. -/
def runVLMLoop (oracle : Nat → GeminiWire) :
    List KeyframeInput → Nat → GoStr → List (GoStr × VLMFrame)
  | [], _, _ => []
  | kf :: rest, i, prevDesc =>
    let prompt := mkPrompt prevDesc kf.TimestampSec
    match callGemini (oracle i) with
    | .ok desc =>
      (prompt, ⟨kf.FrameIndex, kf.TimestampSec, desc⟩) ::
        runVLMLoop oracle rest (i + 1) desc
    | .error e =>
      (prompt, ⟨kf.FrameIndex, kf.TimestampSec, errMarker e⟩) ::
        runVLMLoop oracle rest (i + 1) prevDesc

/-- RunVLM (gemini.go): the Go pair (*VLMResult, error) as
(Option VLMResult, Option GoStr); every return path of the source yields a nil
error. -/
def RunVLM (oracle : Nat → GeminiWire) (keyframes : List KeyframeInput) :
    Option VLMResult × Option GoStr :=
  (some ⟨(runVLMLoop oracle keyframes 0 initialPrevDesc).map Prod.snd⟩, none)

/-- The prevDesc value in effect before the i-th call of RunVLM's loop: the
description produced by the last successful call among calls 0..i-1, or the
initial sentinel when none succeeded. This is the prevDesc recurrence of the
source (prevDesc is updated only when err == nil). -/
def lastSuccessfulDesc (oracle : Nat → GeminiWire) : Nat → GoStr
  | 0 => initialPrevDesc
  | i + 1 =>
    match callGemini (oracle i) with
    | .ok desc => desc
    | .error _ => lastSuccessfulDesc oracle i

/-- The frame RunVLM emits for keyframe kf at call position i. -/
def vlmFrameAt (oracle : Nat → GeminiWire) (i : Nat) (kf : KeyframeInput) : VLMFrame :=
  match callGemini (oracle i) with
  | .ok desc => ⟨kf.FrameIndex, kf.TimestampSec, desc⟩
  | .error e => ⟨kf.FrameIndex, kf.TimestampSec, errMarker e⟩

/-- The two provider credentials of config.Config read by ServeHTTP. -/
structure HandlerConfig where
  DeepgramAPIKey : GoStr
  GeminiAPIKey : GoStr

/-- KeyframeMeta (r2/client.go): one keyframe metadata entry. -/
structure KeyframeMeta where
  Index : Int
  FrameNumber : Int
  TimestampSec : ℚ
  EntropyScore : ℚ
  R2Key : GoStr

/-- The outcomes of the three R2 fetches one extraction request performs:
video bytes (mandatory), keyframe metadata, and keyframe images (a map from
r2_key to image bytes, modelled as a lookup function). -/
structure R2Fetch where
  video : Except GoStr (List Nat)
  keyframeMetadata : Except GoStr (List KeyframeMeta)
  keyframeImages : Except GoStr (GoStr → Option (List Nat))

/-- Result of the input-gathering and gating part of ServeHTTP: either the
early 500 response issued before any stream is launched, or the pair of
stream-launch decisions (together with the resolved keyframe inputs). -/
inductive ExtractOutcome where
  | httpError (status : Nat) (msg : GoStr)
  | launched (asrLaunched : Bool) (vlmLaunched : Bool) (keyframeInputs : List KeyframeInput)
deriving DecidableEq

/-- The input-gathering and stream-gating logic of ServeHTTP (handler/extract.go)
for a well-formed POST request with a non-empty ad_id: a failed video download
returns 500 at once; a failed metadata fetch clears the metadata (warning
only); a failed image fetch leaves the keyframe inputs empty (warning only);
otherwise inputs pair each metadata entry with its downloaded image. The ASR
stream is launched when the Deepgram key is set; the VLM stream when the
Gemini key is set and at least one keyframe input was resolved. -/
def serveExtract (cfg : HandlerConfig) (r2 : R2Fetch) : ExtractOutcome :=
  match r2.video with
  | .error e => .httpError 500 (("download video: ").toList ++ e)
  | .ok _videoBytes =>
    let keyframeMetas : Option (List KeyframeMeta) :=
      match r2.keyframeMetadata with
      | .error _ => none
      | .ok metas => some metas
    let keyframeInputs : List KeyframeInput :=
      match keyframeMetas with
      | none => []
      | some metas =>
        match r2.keyframeImages with
        | .error _ => []
        | .ok images =>
          metas.filterMap (fun m =>
            match images m.R2Key with
            | some imgBytes => some ⟨m.Index, m.TimestampSec, imgBytes⟩
            | none => none)
    .launched (decide (cfg.DeepgramAPIKey ≠ []))
      (decide (cfg.GeminiAPIKey ≠ [] ∧ keyframeInputs ≠ [])) keyframeInputs

theorem runVLMLoop_map_fields (oracle : Nat → GeminiWire) :
    ∀ (kfs : List KeyframeInput) (i : Nat) (prev : GoStr),
      (runVLMLoop oracle kfs i prev).map (fun p => (p.2.FrameIndex, p.2.TimestampSec)) =
        kfs.map (fun kf => (kf.FrameIndex, kf.TimestampSec)) := by
  intro kfs
  induction kfs with
  | nil => intro i prev; simp [runVLMLoop]
  | cons kf rest ih =>
    intro i prev
    cases h : callGemini (oracle i) with
    | ok d => simp [runVLMLoop, h, ih]
    | error e => simp [runVLMLoop, h, ih]

theorem runVLMLoop_length (oracle : Nat → GeminiWire) (kfs : List KeyframeInput)
    (i : Nat) (prev : GoStr) : (runVLMLoop oracle kfs i prev).length = kfs.length := by
  have h := congrArg List.length (runVLMLoop_map_fields oracle kfs i prev)
  simpa using h

theorem runVLMLoop_lastSuccessful (oracle : Nat → GeminiWire) :
    ∀ (kfs : List KeyframeInput) (i : Nat),
      runVLMLoop oracle kfs i (lastSuccessfulDesc oracle i) =
        (List.enumFrom i kfs).map
          (fun p => (mkPrompt (lastSuccessfulDesc oracle p.1) p.2.TimestampSec,
            vlmFrameAt oracle p.1 p.2)) := by
  intro kfs
  induction kfs with
  | nil => intro i; simp [runVLMLoop]
  | cons kf rest ih =>
    intro i
    have hrec := ih (i + 1)
    cases h : callGemini (oracle i) with
    | ok d =>
      have hnext : lastSuccessfulDesc oracle (i + 1) = d := by
        simp [lastSuccessfulDesc, h]
      rw [hnext] at hrec
      simp [runVLMLoop, h, vlmFrameAt, hrec]
    | error e =>
      have hnext : lastSuccessfulDesc oracle (i + 1) = lastSuccessfulDesc oracle i := by
        simp [lastSuccessfulDesc, h]
      rw [hnext] at hrec
      simp [runVLMLoop, h, vlmFrameAt, hrec]

/-- C1: when the provider call for frame i fails, RunVLM still emits a frame
for i whose description is the bracketed error marker, keeps one frame per
keyframe (no abort), surfaces no function-level error, and every frame's
prompt is built from the most recent successful description (the initial
sentinel while none has succeeded), never from a failed frame's error text. -/
theorem C1_vlm_frame_failure_isolated (oracle : Nat → GeminiWire)
    (kfs : List KeyframeInput) (i : Nat) (kf : KeyframeInput) (e : GoStr)
    (hkf : kfs[i]? = some kf)
    (he : callGemini (oracle i) = Except.error e) :
    (runVLMLoop oracle kfs 0 initialPrevDesc)[i]? =
        some (mkPrompt (lastSuccessfulDesc oracle i) kf.TimestampSec,
          ⟨kf.FrameIndex, kf.TimestampSec, errMarker e⟩) ∧
      (runVLMLoop oracle kfs 0 initialPrevDesc).length = kfs.length ∧
      (RunVLM oracle kfs).2 = none ∧
      (∀ (j : Nat) (kf2 : KeyframeInput), kfs[j]? = some kf2 →
        ∃ fr, (runVLMLoop oracle kfs 0 initialPrevDesc)[j]? =
          some (mkPrompt (lastSuccessfulDesc oracle j) kf2.TimestampSec, fr)) := by
  have hL := runVLMLoop_lastSuccessful oracle kfs 0
  have h0 : lastSuccessfulDesc oracle 0 = initialPrevDesc := rfl
  rw [h0] at hL
  refine ⟨?_, runVLMLoop_length oracle kfs 0 initialPrevDesc, rfl, ?_⟩
  · rw [hL]
    simp [List.getElem?_map, List.getElem?_enumFrom, hkf, vlmFrameAt, he]
  · intro j kf2 hj
    refine ⟨vlmFrameAt oracle j kf2, ?_⟩
    rw [hL]
    simp [List.getElem?_map, List.getElem?_enumFrom, hj]

theorem C1_vlm_frame_failure_isolated_witness :
    (([⟨0, 0, []⟩] : List KeyframeInput))[0]? = some ⟨0, 0, []⟩ ∧
      callGemini (GeminiWire.transportErr ("boom").toList) =
        Except.error (("gemini request: boom").toList) ∧
      (runVLMLoop (fun _ => GeminiWire.transportErr ("boom").toList)
          [⟨0, 0, []⟩] 0 initialPrevDesc)[0]? =
        some (mkPrompt
            (lastSuccessfulDesc (fun _ => GeminiWire.transportErr ("boom").toList) 0) 0,
          ⟨0, 0, errMarker (("gemini request: boom").toList)⟩) :=
  ⟨rfl, rfl,
    (C1_vlm_frame_failure_isolated (fun _ => GeminiWire.transportErr ("boom").toList)
      [⟨0, 0, []⟩] 0 ⟨0, 0, []⟩ (("gemini request: boom").toList) rfl rfl).1⟩

/-- C6: RunVLM never returns a non-nil function-level error, whatever the
keyframes and per-call outcomes, and on an empty keyframe sequence it returns
a result with zero frames rather than an error. -/
theorem C6_vlm_stream_never_fails (oracle : Nat → GeminiWire)
    (kfs : List KeyframeInput) :
    (RunVLM oracle kfs).2 = none ∧ RunVLM oracle [] = (some ⟨[]⟩, none) :=
  ⟨rfl, rfl⟩

/-- C7: RunVLM returns exactly one FrameDescription per input keyframe, in
input order, preserving each keyframe's index and timestamp. -/
theorem C7_vlm_one_frame_per_keyframe (oracle : Nat → GeminiWire)
    (kfs : List KeyframeInput) :
    ∃ res : VLMResult, (RunVLM oracle kfs).1 = some res ∧
      res.Frames.length = kfs.length ∧
      res.Frames.map (fun f => (f.FrameIndex, f.TimestampSec)) =
        kfs.map (fun kf => (kf.FrameIndex, kf.TimestampSec)) := by
  refine ⟨⟨(runVLMLoop oracle kfs 0 initialPrevDesc).map Prod.snd⟩, rfl, ?_, ?_⟩
  · simp [runVLMLoop_length]
  · rw [List.map_map]
    exact runVLMLoop_map_fields oracle kfs 0 initialPrevDesc

theorem utteranceSegments_eq_filterMap (us : List Utterance) :
    utteranceSegments us = us.filterMap (fun u =>
      if trimSpace u.Transcript = [] then none
      else some ⟨u.Start, u.End, trimSpace u.Transcript⟩) := by
  induction us with
  | nil => rfl
  | cons u rest ih =>
    by_cases h : trimSpace u.Transcript = []
    · simp [utteranceSegments, List.filterMap_cons, h, ih]
    · simp [utteranceSegments, List.filterMap_cons, h, ih]

theorem utteranceSegments_length_ne_zero (us : List Utterance)
    (h : ∃ u ∈ us, trimSpace u.Transcript ≠ []) :
    (utteranceSegments us).length ≠ 0 := by
  induction us with
  | nil => simp at h
  | cons u rest ih =>
    by_cases hu : trimSpace u.Transcript = []
    · have : ∃ v ∈ rest, trimSpace v.Transcript ≠ [] := by
        rcases h with ⟨v, hv, hvne⟩
        rcases List.mem_cons.mp hv with hvu | hvr
        · exact absurd (hvu ▸ hu) hvne
        · exact ⟨v, hvr, hvne⟩
      simp [utteranceSegments, hu, ih this]
    · simp [utteranceSegments, hu]

/-- C2: on a decoded response with at least one non-blank utterance, the
segmentation primary path emits exactly one segment per utterance with
non-blank trimmed transcript, in provider order, copying the utterance's
start and end and using the trimmed transcript as text, while blank
utterances are dropped. -/
theorem C2_primary_path_segments (dgResp : deepgramResponse)
    (h : ∃ u ∈ dgResp.Results.Utterances, trimSpace u.Transcript ≠ []) :
    runASRSegments dgResp = dgResp.Results.Utterances.filterMap (fun u =>
      if trimSpace u.Transcript = [] then none
      else some ⟨u.Start, u.End, trimSpace u.Transcript⟩) := by
  unfold runASRSegments
  rw [if_neg]
  · exact utteranceSegments_eq_filterMap _
  · intro hcon
    exact utteranceSegments_length_ne_zero _ h hcon.1

theorem C2_primary_path_segments_witness :
    (∃ u ∈ (deepgramResponse.mk ⟨[⟨0, 1, ("  hi  ").toList⟩, ⟨1, 2, (" ").toList⟩],
        []⟩).Results.Utterances, trimSpace u.Transcript ≠ []) ∧
      runASRSegments (deepgramResponse.mk ⟨[⟨0, 1, ("  hi  ").toList⟩,
          ⟨1, 2, (" ").toList⟩], []⟩) =
        (deepgramResponse.mk ⟨[⟨0, 1, ("  hi  ").toList⟩,
          ⟨1, 2, (" ").toList⟩], []⟩).Results.Utterances.filterMap (fun u =>
            if trimSpace u.Transcript = [] then none
            else some ⟨u.Start, u.End, trimSpace u.Transcript⟩) :=
  ⟨⟨⟨0, 1, ("  hi  ").toList⟩, by simp, by decide⟩,
    C2_primary_path_segments _ ⟨⟨0, 1, ("  hi  ").toList⟩, by simp, by decide⟩⟩

/-- C8: on any non-OK provider status, RunASR returns a nil result together
with an error embedding both the status code and the response body. -/
theorem C8_asr_non_ok_status (status : Nat) (rawBody : GoStr)
    (decoded : Except GoStr deepgramResponse) (h : status ≠ 200) :
    RunASR (.httpResp status rawBody decoded) =
      (none, some (("deepgram returned ").toList ++ natToGoStr status ++
        (": ").toList ++ rawBody)) := by
  simp [RunASR, h]

theorem C8_asr_non_ok_status_witness :
    (500 : Nat) ≠ 200 ∧
      RunASR (.httpResp 500 ("oops").toList (Except.error [])) =
        (none, some (("deepgram returned ").toList ++ natToGoStr 500 ++
          (": ").toList ++ ("oops").toList)) :=
  ⟨by decide, C8_asr_non_ok_status 500 (("oops").toList) (Except.error []) (by decide)⟩

/-- C9: a failed mandatory video fetch fails the whole request with the early
500 before any stream-launch decision is made; a failed optional metadata or
image fetch leaves the request proceeding, with the visual stream not launched
(no keyframe inputs) and the transcript stream's launch decision depending on
the Deepgram credential exactly as in the unimpaired case. -/
theorem C9_handler_mandatory_vs_optional (cfg : HandlerConfig) (r2 : R2Fetch) :
    (∀ e, r2.video = .error e →
      serveExtract cfg r2 = .httpError 500 (("download video: ").toList ++ e)) ∧
      (∀ v e2, r2.video = .ok v → r2.keyframeMetadata = .error e2 →
        serveExtract cfg r2 =
          .launched (decide (cfg.DeepgramAPIKey ≠ [])) false []) ∧
      (∀ v metas e3, r2.video = .ok v → r2.keyframeMetadata = .ok metas →
        r2.keyframeImages = .error e3 →
        serveExtract cfg r2 =
          .launched (decide (cfg.DeepgramAPIKey ≠ [])) false []) := by
  obtain ⟨video, meta, imgs⟩ := r2
  refine ⟨?_, ?_, ?_⟩
  · intro e he
    simp only at he
    subst he
    simp [serveExtract]
  · intro v e2 hv hm
    simp only at hv hm
    subst hv
    subst hm
    simp [serveExtract]
  · intro v metas e3 hv hm hi
    simp only at hv hm hi
    subst hv
    subst hm
    subst hi
    simp [serveExtract]

theorem C9_handler_mandatory_vs_optional_witness :
    ((R2Fetch.mk (.error ("gone").toList) (.ok []) (.ok (fun _ => none))).video =
        .error ("gone").toList) ∧
      serveExtract ⟨("dk").toList, ("gk").toList⟩
          (R2Fetch.mk (.error ("gone").toList) (.ok []) (.ok (fun _ => none))) =
        .httpError 500 (("download video: gone").toList) :=
  ⟨rfl, by
    have h := (C9_handler_mandatory_vs_optional ⟨("dk").toList, ("gk").toList⟩
      (R2Fetch.mk (.error ("gone").toList) (.ok []) (.ok (fun _ => none)))).1
      (("gone").toList) rfl
    exact h⟩

theorem length_dropWhile_le_self (p : Char → Bool) (s : GoStr) :
    (s.dropWhile p).length ≤ s.length :=
  (List.dropWhile_suffix p).length_le

theorem dropWhile_eq_self_of_length (p : Char → Bool) :
    ∀ s : GoStr, (s.dropWhile p).length = s.length → s.dropWhile p = s := by
  intro s h
  induction s with
  | nil => rfl
  | cons a t ih =>
    by_cases hp : p a
    · rw [List.dropWhile_cons_of_pos hp] at h
      have := length_dropWhile_le_self p t
      simp [List.length_cons] at h
      omega
    · exact List.dropWhile_cons_of_neg hp

theorem head?_dropWhile_false (p : Char → Bool) :
    ∀ (s : GoStr) (a : Char), (s.dropWhile p).head? = some a → p a = false := by
  intro s
  induction s with
  | nil => intro a h; simp at h
  | cons b t ih =>
    intro a h
    by_cases hp : p b
    · rw [List.dropWhile_cons_of_pos hp] at h
      exact ih a h
    · rw [List.dropWhile_cons_of_neg hp] at h
      simp at h
      subst h
      simpa using hp

theorem head?_not_space_of_dropWhile_self (s : GoStr)
    (h : s.dropWhile isSpaceChar = s) :
    ∀ a, s.head? = some a → isSpaceChar a = false := by
  intro a ha
  apply head?_dropWhile_false isSpaceChar s a
  rw [h]
  exact ha

theorem trimSpace_eq_self_parts (s : GoStr) (h : trimSpace s = s) :
    s.dropWhile isSpaceChar = s ∧
      s.reverse.dropWhile isSpaceChar = s.reverse := by
  have hlen : (trimSpace s).length = s.length := by rw [h]
  have hl1 : ((s.dropWhile isSpaceChar).reverse.dropWhile isSpaceChar).length ≤
      (s.dropWhile isSpaceChar).length := by
    have := length_dropWhile_le_self isSpaceChar (s.dropWhile isSpaceChar).reverse
    simpa using this
  have hl2 : (s.dropWhile isSpaceChar).length ≤ s.length :=
    length_dropWhile_le_self isSpaceChar s
  have hlen2 : ((s.dropWhile isSpaceChar).reverse.dropWhile isSpaceChar).length =
      s.length := by
    have : (trimSpace s).length =
        ((s.dropWhile isSpaceChar).reverse.dropWhile isSpaceChar).length := by
      simp [trimSpace]
    omega
  have hu : s.dropWhile isSpaceChar = s := by
    exact dropWhile_eq_self_of_length isSpaceChar s (by omega)
  refine ⟨hu, ?_⟩
  have h3 := hlen2
  rw [hu] at h3
  exact dropWhile_eq_self_of_length isSpaceChar s.reverse (by simpa using h3)

theorem trimSpace_eq_self_of_parts (s : GoStr)
    (h1 : s.dropWhile isSpaceChar = s)
    (h2 : s.reverse.dropWhile isSpaceChar = s.reverse) :
    trimSpace s = s := by
  unfold trimSpace
  rw [h1, h2, List.reverse_reverse]

theorem head?_not_space_of_trimmed (s : GoStr) (h : trimSpace s = s) :
    ∀ a, s.head? = some a → isSpaceChar a = false :=
  head?_not_space_of_dropWhile_self s (trimSpace_eq_self_parts s h).1

theorem getLast?_not_space_of_trimmed (s : GoStr) (h : trimSpace s = s) :
    ∀ a, s.getLast? = some a → isSpaceChar a = false := by
  intro a ha
  have hrev : s.reverse.head? = some a := by
    rw [List.head?_reverse]
    exact ha
  exact head?_not_space_of_dropWhile_self s.reverse
    (trimSpace_eq_self_parts s h).2 a hrev

theorem trimSpace_eq_self_of_ends (s : GoStr)
    (h1 : ∀ a, s.head? = some a → isSpaceChar a = false)
    (h2 : ∀ a, s.getLast? = some a → isSpaceChar a = false) :
    trimSpace s = s := by
  refine trimSpace_eq_self_of_parts s ?_ ?_
  · cases s with
    | nil => rfl
    | cons a t =>
      exact List.dropWhile_cons_of_neg (by simp [h1 a rfl])
  · cases hr : s.reverse with
    | nil => rfl
    | cons a t =>
      have ha : s.getLast? = some a := by
        rw [← List.head?_reverse, hr]
        rfl
      exact List.dropWhile_cons_of_neg (by simp [h2 a ha])

theorem trimSpace_idem (s : GoStr) : trimSpace (trimSpace s) = trimSpace s := by
  refine trimSpace_eq_self_of_ends (trimSpace s) ?_ ?_
  · intro a ha
    have hpre : trimSpace s <+: s.dropWhile isSpaceChar := by
      have hsuf : (s.dropWhile isSpaceChar).reverse.dropWhile isSpaceChar <:+
          (s.dropWhile isSpaceChar).reverse := List.dropWhile_suffix isSpaceChar
      have hsuf2 : (trimSpace s).reverse <:+ (s.dropWhile isSpaceChar).reverse := by
        simpa [trimSpace] using hsuf
      exact List.reverse_suffix.mp hsuf2
    obtain ⟨r, hr⟩ := hpre
    have hhead : (s.dropWhile isSpaceChar).head? = some a := by
      rw [← hr]
      cases hts : trimSpace s with
      | nil => rw [hts] at ha; simp at ha
      | cons b t =>
        rw [hts] at ha
        simp at ha
        simp [ha]
    exact head?_dropWhile_false isSpaceChar s a hhead
  · intro a ha
    have : ((s.dropWhile isSpaceChar).reverse.dropWhile isSpaceChar).head? =
        some a := by
      rw [← List.getLast?_reverse]
      simpa [trimSpace] using ha
    exact head?_dropWhile_false isSpaceChar (s.dropWhile isSpaceChar).reverse a this

theorem joinSpace_cons_of_ne_nil (s : GoStr) (rest : List GoStr) (h : rest ≠ []) :
    joinSpace (s :: rest) = s ++ ' ' :: joinSpace rest := by
  cases rest with
  | nil => exact absurd rfl h
  | cons r rs => rfl

theorem joinSpace_append (xs ys : List GoStr) (hx : xs ≠ []) (hy : ys ≠ []) :
    joinSpace (xs ++ ys) = joinSpace xs ++ ' ' :: joinSpace ys := by
  induction xs with
  | nil => exact absurd rfl hx
  | cons x rest ih =>
    cases rest with
    | nil =>
      simp only [List.cons_append, List.nil_append]
      rw [joinSpace_cons_of_ne_nil x ys hy]
      rfl
    | cons r rs =>
      have hne : (r :: rs : List GoStr) ≠ [] := by simp
      rw [List.cons_append,
        joinSpace_cons_of_ne_nil x ((r :: rs) ++ ys) (by simp),
        ih hne, joinSpace_cons_of_ne_nil x (r :: rs) hne]
      simp [List.append_assoc]

theorem flatten_ne_nil_of_forall (cl : List (List GoStr)) (h0 : cl ≠ [])
    (h : ∀ c ∈ cl, c ≠ []) : cl.flatten ≠ [] := by
  cases cl with
  | nil => exact absurd rfl h0
  | cons c rest =>
    have hc : c ≠ [] := h c (by simp)
    simp [List.flatten_cons, hc]

theorem joinSpace_map_flatten (cl : List (List GoStr)) (h : ∀ c ∈ cl, c ≠ []) :
    joinSpace (cl.map joinSpace) = joinSpace cl.flatten := by
  induction cl with
  | nil => rfl
  | cons c rest ih =>
    cases rest with
    | nil => simp [joinSpace]
    | cons d ds =>
      have hrest : (d :: ds : List (List GoStr)) ≠ [] := by simp
      have hmem : ∀ x ∈ d :: ds, x ≠ [] := fun x hx => h x (by simp [hx])
      have hc : c ≠ [] := h c (by simp)
      have hflat : (d :: ds : List (List GoStr)).flatten ≠ [] :=
        flatten_ne_nil_of_forall _ hrest hmem
      have hra : joinSpace ((c :: d :: ds : List (List GoStr)).flatten) =
          joinSpace c ++ ' ' :: joinSpace ((d :: ds : List (List GoStr)).flatten) := by
        rw [List.flatten_cons]
        exact joinSpace_append c (d :: ds).flatten hc hflat
      rw [List.map_cons,
        joinSpace_cons_of_ne_nil (joinSpace c) ((d :: ds).map joinSpace) (by simp),
        ih hmem, hra]

theorem joinSpace_ne_nil (c : List GoStr) (h0 : c ≠ []) (h : ∀ t ∈ c, t ≠ []) :
    joinSpace c ≠ [] := by
  cases c with
  | nil => exact absurd rfl h0
  | cons t rest =>
    cases rest with
    | nil => exact h t (by simp)
    | cons r rs =>
      rw [joinSpace_cons_of_ne_nil t (r :: rs) (by simp)]
      simp

theorem joinSpace_head?_of_ne_nil (t : GoStr) (rest : List GoStr) (ht : t ≠ []) :
    (joinSpace (t :: rest)).head? = t.head? := by
  cases rest with
  | nil => rfl
  | cons r rs =>
    rw [joinSpace_cons_of_ne_nil t (r :: rs) (by simp)]
    cases t with
    | nil => exact absurd rfl ht
    | cons a t2 => rfl

theorem joinSpace_getLast? (cl : List GoStr) (h : ∀ t ∈ cl, t ≠ []) :
    ∀ lt, cl.getLast? = some lt → (joinSpace cl).getLast? = lt.getLast? := by
  induction cl with
  | nil => intro lt hlt; simp at hlt
  | cons t rest ih =>
    intro lt hlt
    cases rest with
    | nil =>
      simp at hlt
      subst hlt
      rfl
    | cons r rs =>
      have hrest : (r :: rs : List GoStr) ≠ [] := by simp
      have hmem : ∀ x ∈ r :: rs, x ≠ [] := fun x hx => h x (by simp [hx])
      have hlt2 : (r :: rs : List GoStr).getLast? = some lt := by
        rw [← hlt]
        exact (List.getLast?_cons_cons ..).symm
      have hj : (joinSpace (r :: rs)).getLast? = lt.getLast? := ih hmem lt hlt2
      have hltne : lt ≠ [] := h lt (List.mem_of_mem_getLast? hlt)
      obtain ⟨b, hb⟩ : ∃ b, lt.getLast? = some b := by
        cases hg : lt.getLast? with
        | none => exact absurd (List.getLast?_eq_none_iff.mp hg) hltne
        | some b => exact ⟨b, rfl⟩
      rw [joinSpace_cons_of_ne_nil t (r :: rs) hrest, hb]
      have h1 : (' ' :: joinSpace (r :: rs) : GoStr).getLast? = some b := by
        have hsplit : (' ' :: joinSpace (r :: rs) : GoStr) =
            [' '] ++ joinSpace (r :: rs) := rfl
        rw [hsplit, List.getLast?_append, hj, hb]
        rfl
      rw [List.getLast?_append, h1]
      rfl

theorem trimSpace_joinSpace (c : List GoStr) (h0 : c ≠ [])
    (h : ∀ t ∈ c, t ≠ [] ∧ trimSpace t = t) :
    trimSpace (joinSpace c) = joinSpace c := by
  refine trimSpace_eq_self_of_ends (joinSpace c) ?_ ?_
  · intro a ha
    cases c with
    | nil => exact absurd rfl h0
    | cons t rest =>
      have ht := h t (by simp)
      rw [joinSpace_head?_of_ne_nil t rest ht.1] at ha
      exact head?_not_space_of_trimmed t ht.2 a ha
  · intro a ha
    obtain ⟨lt, hlt⟩ : ∃ lt, c.getLast? = some lt := by
      cases hg : c.getLast? with
      | none => exact absurd (List.getLast?_eq_none_iff.mp hg) h0
      | some lt => exact ⟨lt, rfl⟩
    rw [joinSpace_getLast? c (fun t htm => (h t htm).1) lt hlt] at ha
    have hlte := h lt (List.mem_of_mem_getLast? hlt)
    exact getLast?_not_space_of_trimmed lt hlte.2 a ha

theorem groupWordsLoop_chunks (D : ℚ) :
    ∀ (words : List wordEntry) (chunk : List GoStr) (cs : ℚ) (st : Bool),
      ∃ cl : List (List GoStr),
        (groupWordsLoop D words chunk cs st).1.map (fun s => s.Text) =
            cl.map joinSpace ∧
          (∀ c ∈ cl, c ≠ []) ∧
          cl.flatten ++ (groupWordsLoop D words chunk cs st).2.1 =
            chunk ++ words.map (fun w => w.Word) := by
  intro words
  induction words with
  | nil =>
    intro chunk cs st
    exact ⟨[], by simp [groupWordsLoop], by simp, by simp [groupWordsLoop]⟩
  | cons w rest ih =>
    intro chunk cs st
    by_cases h : w.End - (if st then cs else w.Start) ≥ D
    · obtain ⟨cl, h1, h2, h3⟩ := ih [] (if st then cs else w.Start) false
      refine ⟨(chunk ++ [w.Word]) :: cl, ?_, ?_, ?_⟩
      · simp only [groupWordsLoop, if_pos h, List.map_cons]
        rw [h1]
      · intro c hc
        rcases List.mem_cons.mp hc with rfl | hc2
        · simp
        · exact h2 c hc2
      · simp only [groupWordsLoop, if_pos h, List.flatten_cons, List.map_cons]
        rw [List.append_assoc, h3]
        simp
    · obtain ⟨cl, h1, h2, h3⟩ := ih (chunk ++ [w.Word]) (if st then cs else w.Start) true
      refine ⟨cl, ?_, h2, ?_⟩
      · simp only [groupWordsLoop, if_neg h]
        exact h1
      · simp only [groupWordsLoop, if_neg h, List.map_cons]
        rw [h3]
        simp

theorem groupWordsLoop_times (D : ℚ) (PS PE : ℚ → Prop) :
    ∀ (words : List wordEntry) (chunk : List GoStr) (cs : ℚ) (st : Bool),
      (∀ w ∈ words, PS w.Start ∧ PE w.End) →
      (st = true → PS cs) →
      (st = false → chunk = []) →
      ((∀ seg ∈ (groupWordsLoop D words chunk cs st).1, PS seg.Start ∧ PE seg.End) ∧
        ((groupWordsLoop D words chunk cs st).2.1 ≠ [] →
          PS (groupWordsLoop D words chunk cs st).2.2)) := by
  intro words
  induction words with
  | nil =>
    intro chunk cs st hw hst hch
    refine ⟨by simp [groupWordsLoop], ?_⟩
    intro hne
    simp only [groupWordsLoop] at hne ⊢
    cases st with
    | true => exact hst rfl
    | false => exact absurd (hch rfl) hne
  | cons w rest ih =>
    intro chunk cs st hw hst hch
    have hwhead := hw w (by simp)
    have hwrest : ∀ v ∈ rest, PS v.Start ∧ PE v.End :=
      fun v hv => hw v (by simp [hv])
    have hcs : PS (if st then cs else w.Start) := by
      cases st with
      | true => simpa using hst rfl
      | false => simpa using hwhead.1
    by_cases h : w.End - (if st then cs else w.Start) ≥ D
    · obtain ⟨ihseg, ihleft⟩ := ih [] (if st then cs else w.Start) false hwrest
        (by intro hcon; exact absurd hcon (by simp)) (fun _ => rfl)
      constructor
      · intro seg hseg
        simp only [groupWordsLoop, if_pos h, List.mem_cons] at hseg
        rcases hseg with rfl | hseg2
        · exact ⟨hcs, hwhead.2⟩
        · exact ihseg seg hseg2
      · intro hne
        simp only [groupWordsLoop, if_pos h] at hne ⊢
        exact ihleft hne
    · obtain ⟨ihseg, ihleft⟩ := ih (chunk ++ [w.Word]) (if st then cs else w.Start)
        true hwrest (fun _ => hcs) (by intro hcon; cases hcon)
      constructor
      · intro seg hseg
        simp only [groupWordsLoop, if_neg h] at hseg
        exact ihseg seg hseg
      · intro hne
        simp only [groupWordsLoop, if_neg h] at hne ⊢
        exact ihleft hne

theorem groupWordsLoop_start_le_end (D : ℚ) (hD : 0 ≤ D) :
    ∀ (words : List wordEntry) (chunk : List GoStr) (cs : ℚ) (st : Bool),
      ∀ seg ∈ (groupWordsLoop D words chunk cs st).1, seg.Start ≤ seg.End := by
  intro words
  induction words with
  | nil => intro chunk cs st seg hseg; simp [groupWordsLoop] at hseg
  | cons w rest ih =>
    intro chunk cs st seg hseg
    by_cases h : w.End - (if st then cs else w.Start) ≥ D
    · simp only [groupWordsLoop, if_pos h, List.mem_cons] at hseg
      rcases hseg with rfl | hseg2
      · simp only
        linarith
      · exact ih [] (if st then cs else w.Start) false seg hseg2
    · simp only [groupWordsLoop, if_neg h] at hseg
      exact ih (chunk ++ [w.Word]) (if st then cs else w.Start) true seg hseg

theorem word_start_le_last_end :
    ∀ (words : List wordEntry),
      (∀ w ∈ words, w.Start ≤ w.End) →
      words.Pairwise (fun x y => x.Start ≤ y.Start) →
      ∀ w ∈ words, ∀ lw, words.getLast? = some lw → w.Start ≤ lw.End := by
  intro words
  induction words with
  | nil => intro _ _ w hw; simp at hw
  | cons a rest ih =>
    intro hse hsorted w hwmem lw hlast
    cases rest with
    | nil =>
      simp at hwmem hlast
      subst hwmem
      subst hlast
      exact hse w (by simp)
    | cons b bs =>
      rw [List.getLast?_cons_cons] at hlast
      rcases List.mem_cons.mp hwmem with rfl | hmem2
      · have hlwmem : lw ∈ b :: bs := List.mem_of_mem_getLast? hlast
        have hstart := (List.pairwise_cons.mp hsorted).1 lw hlwmem
        have hlw := hse lw (by simp [hlwmem])
        linarith
      · exact ih (fun v hv => hse v (by simp [hv]))
          (List.pairwise_cons.mp hsorted).2 w hmem2 lw hlast

theorem mem_utteranceSegments (us : List Utterance) (seg : ASRSegment)
    (h : seg ∈ utteranceSegments us) :
    ∃ u ∈ us, trimSpace u.Transcript ≠ [] ∧
      seg = ⟨u.Start, u.End, trimSpace u.Transcript⟩ := by
  induction us with
  | nil => simp [utteranceSegments] at h
  | cons u rest ih =>
    by_cases ht : trimSpace u.Transcript = []
    · simp only [utteranceSegments, ht, if_pos] at h
      obtain ⟨v, hv, h2⟩ := ih h
      exact ⟨v, by simp [hv], h2⟩
    · simp only [utteranceSegments, if_neg ht, List.mem_cons] at h
      rcases h with rfl | h2
      · exact ⟨u, by simp, ht, rfl⟩
      · obtain ⟨v, hv, h3⟩ := ih h2
        exact ⟨v, by simp [hv], h3⟩

/-- C10: the chunker consumes every word exactly once and in order — the
space-joined texts of its output equal the space-joined input tokens — and
every segment's start (resp. end) time is the start (resp. end) time of some
input word. -/
theorem C10_chunker_token_conservation (words : List wordEntry) (D : ℚ) :
    joinSpace ((groupWordsIntoChunks words D).map (fun s => s.Text)) =
        joinSpace (words.map (fun w => w.Word)) ∧
      ∀ seg ∈ groupWordsIntoChunks words D,
        (∃ w ∈ words, seg.Start = w.Start) ∧ ∃ w ∈ words, seg.End = w.End := by
  obtain ⟨cl, h1, h2, h3⟩ := groupWordsLoop_chunks D words [] 0 false
  simp only [List.nil_append] at h3
  have htimes := groupWordsLoop_times D
    (fun x => ∃ w ∈ words, x = w.Start) (fun x => ∃ w ∈ words, x = w.End)
    words [] 0 false (fun w hw => ⟨⟨w, hw, rfl⟩, ⟨w, hw, rfl⟩⟩)
    (by simp) (fun _ => rfl)
  cases hlef : (groupWordsLoop D words [] 0 false).2.1 with
  | nil =>
    have hres : groupWordsIntoChunks words D =
        (groupWordsLoop D words [] 0 false).1 := by
      simp [groupWordsIntoChunks, hlef]
    rw [hlef] at h3
    simp only [List.append_nil] at h3
    constructor
    · rw [hres, h1, joinSpace_map_flatten cl h2, h3]
    · intro seg hseg
      rw [hres] at hseg
      exact htimes.1 seg hseg
  | cons c cs0 =>
    rw [hlef] at h3
    have hwne : words ≠ [] := by
      intro h0
      subst h0
      simp at h3
    obtain ⟨lw, hlast⟩ : ∃ lw, words.getLast? = some lw := by
      cases hg : words.getLast? with
      | none => exact absurd (List.getLast?_eq_none_iff.mp hg) hwne
      | some lw => exact ⟨lw, rfl⟩
    have hres : groupWordsIntoChunks words D =
        (groupWordsLoop D words [] 0 false).1 ++
          [⟨(groupWordsLoop D words [] 0 false).2.2, lw.End,
            joinSpace (c :: cs0)⟩] := by
      simp [groupWordsIntoChunks, hlef, hlast]
    have hcl2 : ∀ x ∈ cl ++ [c :: cs0], x ≠ [] := by
      intro x hx
      rcases List.mem_append.mp hx with hx1 | hx2
      · exact h2 x hx1
      · simp at hx2
        subst hx2
        simp
    constructor
    · rw [hres, List.map_append, h1]
      have hmapsing : ([⟨(groupWordsLoop D words [] 0 false).2.2, lw.End,
          joinSpace (c :: cs0)⟩] : List ASRSegment).map (fun s => s.Text) =
          [joinSpace (c :: cs0)] := rfl
      have hjoin : List.map joinSpace cl ++ [joinSpace (c :: cs0)] =
          List.map joinSpace (cl ++ [c :: cs0]) := by simp
      rw [hmapsing, hjoin,
        joinSpace_map_flatten (cl ++ [c :: cs0]) hcl2, List.flatten_append]
      simp only [List.flatten_cons, List.flatten_nil, List.append_nil]
      rw [h3]
    · intro seg hseg
      rw [hres] at hseg
      rcases List.mem_append.mp hseg with hseg1 | hseg2
      · exact htimes.1 seg hseg1
      · simp at hseg2
        subst hseg2
        refine ⟨htimes.2 (by rw [hlef]; simp), lw, ?_, rfl⟩
        exact List.mem_of_mem_getLast? hlast

/-- C3 (amended): for word lists whose tokens are all non-empty, the fallback
chunker never produces a segment with empty text; and, for every word list,
whenever a final un-flushed chunk remains at end of input, the flushed final
segment's end time equals the last input word's end time. -/
theorem C3_chunker_nonempty_text_and_final_end (words : List wordEntry) (D : ℚ) :
    ((∀ w ∈ words, w.Word ≠ []) →
        ∀ seg ∈ groupWordsIntoChunks words D, seg.Text ≠ []) ∧
      ((groupWordsLoop D words [] 0 false).2.1 ≠ [] →
        (groupWordsIntoChunks words D).getLast?.map (fun s => s.End) =
          words.getLast?.map (fun w => w.End)) := by
  obtain ⟨cl, h1, h2, h3⟩ := groupWordsLoop_chunks D words [] 0 false
  simp only [List.nil_append] at h3
  constructor
  · intro htok seg hseg
    have htokmem : ∀ t ∈ cl.flatten ++ (groupWordsLoop D words [] 0 false).2.1,
        t ≠ [] := by
      rw [h3]
      intro t ht
      obtain ⟨w, hwm, rfl⟩ := List.mem_map.mp ht
      exact htok w hwm
    have hr1 : ∀ seg2 ∈ (groupWordsLoop D words [] 0 false).1, seg2.Text ≠ [] := by
      intro seg2 hseg2
      have hmem := List.mem_map_of_mem (fun s => s.Text) hseg2
      rw [h1] at hmem
      obtain ⟨c, hc, hceq⟩ := List.mem_map.mp hmem
      have hceq2 : joinSpace c = seg2.Text := hceq
      rw [← hceq2]
      refine joinSpace_ne_nil c (h2 c hc) ?_
      intro t ht
      exact htokmem t (List.mem_append.mpr (Or.inl (List.mem_flatten.mpr ⟨c, hc, ht⟩)))
    cases hlef : (groupWordsLoop D words [] 0 false).2.1 with
    | nil =>
      have hres : groupWordsIntoChunks words D =
          (groupWordsLoop D words [] 0 false).1 := by
        simp [groupWordsIntoChunks, hlef]
      rw [hres] at hseg
      exact hr1 seg hseg
    | cons c cs0 =>
      rw [hlef] at h3
      have hwne : words ≠ [] := by
        intro h0
        subst h0
        simp at h3
      obtain ⟨lw, hlast⟩ : ∃ lw, words.getLast? = some lw := by
        cases hg : words.getLast? with
        | none => exact absurd (List.getLast?_eq_none_iff.mp hg) hwne
        | some lw => exact ⟨lw, rfl⟩
      have hres : groupWordsIntoChunks words D =
          (groupWordsLoop D words [] 0 false).1 ++
            [⟨(groupWordsLoop D words [] 0 false).2.2, lw.End,
              joinSpace (c :: cs0)⟩] := by
        simp [groupWordsIntoChunks, hlef, hlast]
      rw [hres] at hseg
      rcases List.mem_append.mp hseg with hseg1 | hseg2
      · exact hr1 seg hseg1
      · simp at hseg2
        subst hseg2
        show joinSpace (c :: cs0) ≠ []
        refine joinSpace_ne_nil (c :: cs0) (by simp) ?_
        intro t ht
        refine htokmem t (List.mem_append.mpr (Or.inr ?_))
        rw [hlef]
        exact ht
  · intro hlef0
    cases hlef : (groupWordsLoop D words [] 0 false).2.1 with
    | nil => exact absurd hlef hlef0
    | cons c cs0 =>
      rw [hlef] at h3
      have hwne : words ≠ [] := by
        intro h0
        subst h0
        simp at h3
      obtain ⟨lw, hlast⟩ : ∃ lw, words.getLast? = some lw := by
        cases hg : words.getLast? with
        | none => exact absurd (List.getLast?_eq_none_iff.mp hg) hwne
        | some lw => exact ⟨lw, rfl⟩
      have hres : groupWordsIntoChunks words D =
          (groupWordsLoop D words [] 0 false).1 ++
            [⟨(groupWordsLoop D words [] 0 false).2.2, lw.End,
              joinSpace (c :: cs0)⟩] := by
        simp [groupWordsIntoChunks, hlef, hlast]
      rw [hres, List.getLast?_concat, hlast]
      rfl

theorem C3_chunker_nonempty_text_and_final_end_witness :
    (∀ w ∈ ([⟨("hi").toList, 0, 1⟩] : List wordEntry), w.Word ≠ []) ∧
      (∀ seg ∈ groupWordsIntoChunks [⟨("hi").toList, 0, 1⟩] 3, seg.Text ≠ []) ∧
      ((groupWordsLoop 3 [⟨("hi").toList, 0, 1⟩] [] 0 false).2.1 ≠ [] →
        (groupWordsIntoChunks [⟨("hi").toList, 0, 1⟩] 3).getLast?.map
            (fun s => s.End) =
          ([⟨("hi").toList, 0, 1⟩] : List wordEntry).getLast?.map
            (fun w => w.End)) :=
  ⟨by decide,
    (C3_chunker_nonempty_text_and_final_end [⟨("hi").toList, 0, 1⟩] 3).1 (by decide),
    (C3_chunker_nonempty_text_and_final_end [⟨("hi").toList, 0, 1⟩] 3).2⟩

theorem C3_counterexample :
    ∃ seg ∈ groupWordsIntoChunks [⟨[], 0, 1⟩] 3, seg.Text = [] := by
  have h : groupWordsIntoChunks [⟨[], 0, 1⟩] 3 = [⟨0, 1, []⟩] := by
    norm_num [groupWordsIntoChunks, groupWordsLoop, joinSpace]
  rw [h]
  exact ⟨⟨0, 1, []⟩, by simp, rfl⟩

theorem groupWordsIntoChunks_wf (D : ℚ) (hD : 0 ≤ D) (words : List wordEntry)
    (hw : ∀ w ∈ words, w.Start ≤ w.End ∧ w.Word ≠ [] ∧ trimSpace w.Word = w.Word)
    (hsorted : words.Pairwise (fun x y => x.Start ≤ y.Start)) :
    ∀ seg ∈ groupWordsIntoChunks words D,
      seg.Start ≤ seg.End ∧ seg.Text ≠ [] ∧ trimSpace seg.Text = seg.Text := by
  obtain ⟨cl, h1, h2, h3⟩ := groupWordsLoop_chunks D words [] 0 false
  simp only [List.nil_append] at h3
  have htokfacts : ∀ t ∈ cl.flatten ++ (groupWordsLoop D words [] 0 false).2.1,
      t ≠ [] ∧ trimSpace t = t := by
    rw [h3]
    intro t ht
    obtain ⟨w, hwm, rfl⟩ := List.mem_map.mp ht
    exact ⟨(hw w hwm).2.1, (hw w hwm).2.2⟩
  have hr1 : ∀ seg ∈ (groupWordsLoop D words [] 0 false).1,
      seg.Start ≤ seg.End ∧ seg.Text ≠ [] ∧ trimSpace seg.Text = seg.Text := by
    intro seg hseg
    refine ⟨groupWordsLoop_start_le_end D hD words [] 0 false seg hseg, ?_, ?_⟩ <;>
    · have hmem := List.mem_map_of_mem (fun s => s.Text) hseg
      rw [h1] at hmem
      obtain ⟨c, hc, hceq⟩ := List.mem_map.mp hmem
      have hceq2 : joinSpace c = seg.Text := hceq
      have hcts : ∀ t ∈ c, t ≠ [] ∧ trimSpace t = t := by
        intro t ht
        exact htokfacts t
          (List.mem_append.mpr (Or.inl (List.mem_flatten.mpr ⟨c, hc, ht⟩)))
      rw [← hceq2]
      first
        | exact joinSpace_ne_nil c (h2 c hc) (fun t ht => (hcts t ht).1)
        | exact trimSpace_joinSpace c (h2 c hc) hcts
  intro seg hseg
  cases hlef : (groupWordsLoop D words [] 0 false).2.1 with
  | nil =>
    have hres : groupWordsIntoChunks words D =
        (groupWordsLoop D words [] 0 false).1 := by
      simp [groupWordsIntoChunks, hlef]
    rw [hres] at hseg
    exact hr1 seg hseg
  | cons c cs0 =>
    rw [hlef] at h3
    have hwne : words ≠ [] := by
      intro h0
      subst h0
      simp at h3
    obtain ⟨lw, hlast⟩ : ∃ lw, words.getLast? = some lw := by
      cases hg : words.getLast? with
      | none => exact absurd (List.getLast?_eq_none_iff.mp hg) hwne
      | some lw => exact ⟨lw, rfl⟩
    have hres : groupWordsIntoChunks words D =
        (groupWordsLoop D words [] 0 false).1 ++
          [⟨(groupWordsLoop D words [] 0 false).2.2, lw.End,
            joinSpace (c :: cs0)⟩] := by
      simp [groupWordsIntoChunks, hlef, hlast]
    rw [hres] at hseg
    rcases List.mem_append.mp hseg with hseg1 | hseg2
    · exact hr1 seg hseg1
    · simp at hseg2
      subst hseg2
      have hcts : ∀ t ∈ c :: cs0, t ≠ [] ∧ trimSpace t = t := by
        intro t ht
        refine htokfacts t (List.mem_append.mpr (Or.inr ?_))
        rw [hlef]
        exact ht
      refine ⟨?_, ?_, ?_⟩
      · have hstart := groupWordsLoop_times D (fun x => ∃ w ∈ words, x = w.Start)
          (fun _ => True) words [] 0 false
          (fun w hw2 => ⟨⟨w, hw2, rfl⟩, trivial⟩) (by simp) (fun _ => rfl)
        obtain ⟨w, hwm, hweq⟩ := hstart.2 (by rw [hlef]; simp)
        show (groupWordsLoop D words [] 0 false).2.2 ≤ lw.End
        rw [hweq]
        exact word_start_le_last_end words (fun v hv => (hw v hv).1) hsorted
          w hwm lw hlast
      · exact joinSpace_ne_nil (c :: cs0) (by simp) (fun t ht => (hcts t ht).1)
      · exact trimSpace_joinSpace (c :: cs0) (by simp) hcts

/-- C4 (amended): every segment the segmentation algorithm produces — primary
utterance path or word-level fallback — satisfies end no less than start and
carries non-empty, whitespace-trimmed text, provided the decoded response is
well-formed: every utterance has start at most end, and every word-level entry
has start at most end, start times non-decreasing within its list, and a
non-empty token with no surrounding whitespace. -/
theorem C4_segment_invariants (dgResp : deepgramResponse)
    (hu : ∀ u ∈ dgResp.Results.Utterances, u.Start ≤ u.End)
    (hch : ∀ c ∈ dgResp.Results.Channels, ∀ a ∈ c.Alternatives,
      (∀ w ∈ a.Words, w.Start ≤ w.End ∧ w.Word ≠ [] ∧ trimSpace w.Word = w.Word) ∧
        a.Words.Pairwise (fun x y => x.Start ≤ y.Start)) :
    ∀ seg ∈ runASRSegments dgResp,
      seg.Start ≤ seg.End ∧ seg.Text ≠ [] ∧ trimSpace seg.Text = seg.Text := by
  have hprimary : ∀ seg ∈ utteranceSegments dgResp.Results.Utterances,
      seg.Start ≤ seg.End ∧ seg.Text ≠ [] ∧ trimSpace seg.Text = seg.Text := by
    intro seg hmem
    obtain ⟨u, hum, hne, rfl⟩ := mem_utteranceSegments _ seg hmem
    exact ⟨hu u hum, hne, trimSpace_idem u.Transcript⟩
  by_cases hp : (utteranceSegments dgResp.Results.Utterances).length = 0
  · cases hchannels : dgResp.Results.Channels with
    | nil =>
      have hres : runASRSegments dgResp =
          utteranceSegments dgResp.Results.Utterances := by
        simp [runASRSegments, hchannels]
      rw [hres]
      exact hprimary
    | cons ch chs =>
      cases halts : ch.Alternatives with
      | nil =>
        have hres : runASRSegments dgResp =
            utteranceSegments dgResp.Results.Utterances := by
          simp [runASRSegments, hchannels, halts, hp]
        rw [hres]
        exact hprimary
      | cons alt alts =>
        have hres : runASRSegments dgResp = groupWordsIntoChunks alt.Words 3 := by
          simp [runASRSegments, hchannels, halts, hp]
        have hai := hch ch (by rw [hchannels]; simp) alt (by rw [halts]; simp)
        rw [hres]
        exact groupWordsIntoChunks_wf 3 (by norm_num) alt.Words hai.1 hai.2
  · have hres : runASRSegments dgResp =
        utteranceSegments dgResp.Results.Utterances := by
      simp [runASRSegments, hp]
    rw [hres]
    exact hprimary

theorem C4_segment_invariants_witness :
    (∀ u ∈ (deepgramResponse.mk ⟨[⟨0, 1, ("ok").toList⟩], []⟩).Results.Utterances,
        u.Start ≤ u.End) ∧
      (∀ c ∈ (deepgramResponse.mk ⟨[⟨0, 1, ("ok").toList⟩], []⟩).Results.Channels,
        ∀ a ∈ c.Alternatives,
        (∀ w ∈ a.Words,
          w.Start ≤ w.End ∧ w.Word ≠ [] ∧ trimSpace w.Word = w.Word) ∧
          a.Words.Pairwise (fun x y => x.Start ≤ y.Start)) ∧
      ∀ seg ∈ runASRSegments (deepgramResponse.mk ⟨[⟨0, 1, ("ok").toList⟩], []⟩),
        seg.Start ≤ seg.End ∧ seg.Text ≠ [] ∧ trimSpace seg.Text = seg.Text :=
  ⟨by simp, by simp,
    C4_segment_invariants (deepgramResponse.mk ⟨[⟨0, 1, ("ok").toList⟩], []⟩)
      (by simp) (by simp)⟩

theorem C4_counterexample :
    ∃ seg ∈ runASRSegments ⟨⟨[⟨1, 0, ['h', 'i']⟩], []⟩⟩,
      seg.End < seg.Start := by
  have hne : trimSpace ['h', 'i'] ≠ [] := by decide
  have h : runASRSegments ⟨⟨[⟨1, 0, ['h', 'i']⟩], []⟩⟩ =
      [⟨1, 0, trimSpace ['h', 'i']⟩] := by
    simp [runASRSegments, utteranceSegments, hne]
  rw [h]
  refine ⟨⟨1, 0, trimSpace ['h', 'i']⟩, by simp, by norm_num⟩

/-- The word list of the chunk-boundary determinism scenario: spans
(0.0,0.5) (0.6,1.0) (1.1,1.5) (1.6,2.0) (3.0,3.2) (3.3,3.5) carrying the
tokens Hello, world, this, is, a, test. -/
def c5Words : List wordEntry :=
  [⟨("Hello").toList, 0, 1/2⟩, ⟨("world").toList, 3/5, 1⟩,
    ⟨("this").toList, 11/10, 3/2⟩, ⟨("is").toList, 8/5, 2⟩,
    ⟨("a").toList, 3, 16/5⟩, ⟨("test").toList, 33/10, 7/2⟩]

theorem c5Words_eval :
    groupWordsIntoChunks c5Words 3 =
      [⟨0, 16/5, ("Hello world this is a").toList⟩,
        ⟨33/10, 7/2, ("test").toList⟩] := by
  norm_num [c5Words, groupWordsIntoChunks, groupWordsLoop, joinSpace]

/-- C5 (amended): on the chunk-boundary word list with chunk duration 3.0 the
chunker returns exactly two segments — "Hello world this is a" spanning
0.0 to 3.2, then "test" spanning 3.3 to 3.5 — with texts joined by single
spaces and a chunk flushed once the cumulative span reaches the duration; the
second segment starts at its own first word's start time 3.3, not at the
previous chunk's end 3.2. -/
theorem C5_chunk_boundary_determinism :
    groupWordsIntoChunks c5Words 3 =
      [⟨0, 16/5, ("Hello world this is a").toList⟩,
        ⟨33/10, 7/2, ("test").toList⟩] :=
  c5Words_eval

theorem C5_counterexample :
    groupWordsIntoChunks c5Words 3 ≠
      [⟨0, 16/5, ("Hello world this is a").toList⟩,
        ⟨16/5, 7/2, ("test").toList⟩] := by
  rw [c5Words_eval]
  intro h
  have hstart : (33 : ℚ)/10 = 16/5 := by
    have h2 := congrArg (fun l => l.getLast?.map (fun s => s.Start)) h
    simpa using h2
  norm_num at hstart
